import Mathlib

/-!
Verification of the `linked_lists` Ruby C extension
(`src/ext/linked_lists/linked_lists.c`).

The extension implements a singly linked list of Ruby `VALUE` handles:

  - `rb_linked_list_allocate` : fresh list, `head = NULL`;
  - `rb_linked_list_append`   : walks to the tail and links a new node there;
  - `rb_linked_list_prepend`  : links a new node in front of the head;
  - `rb_linked_list_shift`    : removes the head node and returns its value,
                                `Qnil` on an empty list;
  - `rb_linked_list_inspect`  : renders the list as a string;
  - `linked_list_mark`        : GC tracing hook, calls `rb_gc_mark` on every
                                node value that is truthy as a C word;
  - `linked_list_free`        : GC free hook, `free(ptr)` on the list struct;
  - `linked_list_memsize`     : reports `sizeof(linkedListType)`.

Two embeddings are developed below.

The first ("abstract model") represents the list state as the sequence of
stored `VALUE` words in head-to-tail order; each C function becomes a pure
Lean function on that sequence, translated loop by loop from the source.

The second ("heap model", everything suffixed with `C`) represents the node
store explicitly: a heap maps addresses to nodes `{next, value}`, `malloc`
allocates a never-used address, `free` removes the binding, and the `while`
loops of the source become fuel-bounded address walks.  This model is used
for the pointer-level claims (acyclicity, reachable node count, the free
hook leaving nodes allocated).
-/

namespace LinkedLists

/-- Ruby `VALUE` handles are machine words.  The only representation facts the
C source depends on are that `Qfalse` is the zero word (the only falsy word
besides it being... it is the unique handle that is false in a C `if`) and
that `Qnil` is a fixed nonzero word (`0x08` in the standard build). -/
def qfalse : Nat := 0

/-- The `Qnil` word, the "none" sentinel returned by `shift` on an empty
list (`0x08` in the standard Ruby build; all that matters is `qnil ≠ 0`). -/
def qnil : Nat := 8

/-! ### Abstract model: the list state as the head-to-tail value sequence -/

/-- `rb_linked_list_allocate`: the struct is created with `head = NULL`,
i.e. the empty value sequence. -/
def rb_linked_list_allocate : List Nat := []

/-- The chain mutation performed by `rb_linked_list_append`: if the head is
`NULL` the new node becomes the head, otherwise the loop
`while(node->next != NULL) node = node->next;` walks to the tail and the new
node is linked after it. -/
def append_chain : List Nat → Nat → List Nat
  | [], v => [v]
  | h :: rest, v => h :: append_chain rest v

/-- `rb_linked_list_append(self, value)`: mutates the chain as `append_chain`
and returns `self`. -/
def rb_linked_list_append (self v : Nat) (st : List Nat) : Nat × List Nat :=
  (self, append_chain st v)

/-- The chain mutation performed by `rb_linked_list_prepend`: the new node
takes the current head as successor and becomes the head. -/
def prepend_chain (st : List Nat) (v : Nat) : List Nat := v :: st

/-- `rb_linked_list_prepend(self, value)`: mutates the chain as
`prepend_chain` and returns `self`. -/
def rb_linked_list_prepend (self v : Nat) (st : List Nat) : Nat × List Nat :=
  (self, prepend_chain st v)

/-- `rb_linked_list_shift(self)`: returns `Qnil` if `head` is `NULL`;
otherwise frees the head node, advances `head` and returns the removed
value. -/
def rb_linked_list_shift (st : List Nat) : Nat × List Nat :=
  match st with
  | [] => (qnil, [])
  | v :: rest => (v, rest)

/-- Run `n` successive `shift` calls, collecting the returned values and the
final state. -/
def shiftSeq : Nat → List Nat → List Nat × List Nat
  | 0, st => ([], st)
  | n + 1, st =>
    let r := rb_linked_list_shift st
    let rs := shiftSeq n r.2
    (r.1 :: rs.1, rs.2)

/-- The state after appending `vs` in order to a freshly allocated list. -/
def buildAppend (vs : List Nat) : List Nat :=
  vs.foldl append_chain rb_linked_list_allocate

/-- The state after prepending `vs` in order to a freshly allocated list. -/
def buildPrepend (vs : List Nat) : List Nat :=
  vs.foldl prepend_chain rb_linked_list_allocate

theorem append_chain_eq (st : List Nat) (v : Nat) : append_chain st v = st ++ [v] := by
  induction st with
  | nil => rfl
  | cons h rest ih => simp [append_chain, ih]

theorem foldl_append_chain (vs : List Nat) (st : List Nat) :
    vs.foldl append_chain st = st ++ vs := by
  induction vs generalizing st with
  | nil => simp
  | cons v vs ih => simp [List.foldl_cons, append_chain_eq, ih]

theorem buildAppend_eq (vs : List Nat) : buildAppend vs = vs := by
  simp [buildAppend, rb_linked_list_allocate, foldl_append_chain]

theorem foldl_prepend_chain (vs : List Nat) (st : List Nat) :
    vs.foldl prepend_chain st = vs.reverse ++ st := by
  induction vs generalizing st with
  | nil => simp
  | cons v vs ih => simp [List.foldl_cons, prepend_chain, ih]

theorem buildPrepend_eq (vs : List Nat) : buildPrepend vs = vs.reverse := by
  simp [buildPrepend, rb_linked_list_allocate, foldl_prepend_chain]

theorem shiftSeq_nil (m : Nat) : shiftSeq m [] = (List.replicate m qnil, []) := by
  induction m with
  | zero => rfl
  | succ m ih => simp [shiftSeq, rb_linked_list_shift, ih, List.replicate_succ]

theorem shiftSeq_exact (l : List Nat) (m : Nat) :
    shiftSeq (l.length + m) l = (l ++ List.replicate m qnil, []) := by
  induction l with
  | nil => simpa using shiftSeq_nil m
  | cons v rest ih =>
    have hlen : (v :: rest).length + m = (rest.length + m) + 1 := by
      simp [List.length_cons]; omega
    rw [hlen]
    simp [shiftSeq, rb_linked_list_shift, ih]

/-- C1: appending `v1..vn` to a freshly allocated list and then performing
`n + m` shift calls returns `v1, ..., vn` in order followed by `m` copies of
the `Qnil` sentinel, ending in the empty list. -/
theorem C1_append_then_shift_fifo (vs : List Nat) (m : Nat) :
    shiftSeq (vs.length + m) (buildAppend vs) = (vs ++ List.replicate m qnil, []) := by
  rw [buildAppend_eq]
  exact shiftSeq_exact vs m

/-- C2: prepending `v1..vn` to a freshly allocated list and then performing
`n` shift calls returns `vn, ..., v1`, i.e. the reverse insertion order. -/
theorem C2_prepend_then_shift_lifo (vs : List Nat) :
    shiftSeq vs.length (buildPrepend vs) = (vs.reverse, []) := by
  rw [buildPrepend_eq]
  have h := shiftSeq_exact vs.reverse 0
  simpa using h

/-- C5: `shift` on an empty (freshly allocated) list is not an error: it
returns the `Qnil` sentinel and leaves the list empty. -/
theorem C5_shift_empty_returns_nil :
    rb_linked_list_shift rb_linked_list_allocate = (qnil, rb_linked_list_allocate) := rfl

/-- C7: `append` and `prepend` both return `self`, and a chained call
`list.append(a).append(b)` performs exactly the two sequential mutations
(likewise for `prepend`). -/
theorem C7_append_prepend_return_self (self a b : Nat) (st : List Nat) :
    (rb_linked_list_append self a st).1 = self ∧
    (rb_linked_list_prepend self a st).1 = self ∧
    (let r := rb_linked_list_append self a st
     rb_linked_list_append r.1 b r.2) =
      rb_linked_list_append self b (rb_linked_list_append self a st).2 ∧
    (let r := rb_linked_list_prepend self a st
     rb_linked_list_prepend r.1 b r.2) =
      rb_linked_list_prepend self b (rb_linked_list_prepend self a st).2 :=
  ⟨rfl, rfl, rfl, rfl⟩

/-- C9: for every state and value, `prepend(v)` followed by `shift` returns
`v` and restores exactly the previous state. -/
theorem C9_prepend_shift_roundtrip (self v : Nat) (st : List Nat) :
    rb_linked_list_shift (rb_linked_list_prepend self v st).2 = (v, st) := rfl

/-! ### `rb_linked_list_inspect` -/

/-- The `while` loop of `rb_linked_list_inspect`: `render` stands for the
host's `rb_inspect`, `i` is the loop counter, `str` the accumulated buffer;
on each node the loop appends `", "` when `i > 0` and then the rendered
value. -/
def inspect_loop (render : Nat → String) : List Nat → Nat → String → String
  | [], _, str => str
  | v :: rest, i, str =>
    let s := render v
    let str2 := if 0 < i then str ++ ", " else str
    inspect_loop render rest (i + 1) (str2 ++ s)

/-- `rb_linked_list_inspect(self)`: builds
`"#<" ++ class name ++ " {" ++ loop output ++ "}>"` and performs no write to
the list or its nodes (the returned state equals the input state). -/
def rb_linked_list_inspect (className : String) (render : Nat → String)
    (st : List Nat) : String × List Nat :=
  (inspect_loop render st 0 ("#<" ++ className ++ " \x7b") ++ "\x7d>", st)

/-- The spec's rendering of the stored values: a comma-separated sequence. -/
def commaSep : List String → String
  | [] => ""
  | [s] => s
  | s :: rest => s ++ ", " ++ commaSep rest

/-- Helper for relating the loop to `commaSep`: every element rendered with a
leading `", "`. -/
def commaTail (render : Nat → String) : List Nat → String
  | [] => ""
  | v :: rest => ", " ++ render v ++ commaTail render rest

theorem inspect_loop_pos (render : Nat → String) (chain : List Nat) :
    ∀ (i : Nat) (str : String), 0 < i →
      inspect_loop render chain i str = str ++ commaTail render chain := by
  induction chain with
  | nil => intro i str _; simp [inspect_loop, commaTail]
  | cons v rest ih =>
    intro i str hi
    simp only [inspect_loop, if_pos hi]
    rw [ih (i + 1) _ (Nat.succ_pos i)]
    simp [commaTail, String.append_assoc]

theorem commaSep_map_cons (render : Nat → String) (rest : List Nat) :
    ∀ v : Nat, commaSep ((v :: rest).map render) = render v ++ commaTail render rest := by
  induction rest with
  | nil => intro v; simp [commaSep, commaTail, String.append_empty]
  | cons r rest' ih =>
    intro v
    have h := ih r
    simp only [List.map_cons, commaSep, commaTail] at h ⊢
    rw [h]
    simp [String.append_assoc]

/-- C6: `inspect` renders the class name followed by a brace-delimited,
comma-separated sequence of the values' renderings in head-to-tail order,
without mutating the list; in particular the empty list renders as
`"#<LinkedList {}>"` and `append(1); append(2); append(3)` renders as
`"#<LinkedList {1, 2, 3}>"`. -/
theorem C6_inspect_rendering (className : String) (render : Nat → String)
    (st : List Nat) :
    rb_linked_list_inspect className render st =
      ("#<" ++ className ++ " \x7b" ++ commaSep (st.map render) ++ "\x7d>", st) ∧
    (rb_linked_list_inspect "LinkedList" (fun v => toString v)
      rb_linked_list_allocate).1 = "#<LinkedList \x7b\x7d>" ∧
    (rb_linked_list_inspect "LinkedList" (fun v => toString v)
      (buildAppend [1, 2, 3])).1 = "#<LinkedList \x7b1, 2, 3\x7d>" := by
  refine ⟨?_, rfl, rfl⟩
  unfold rb_linked_list_inspect
  cases st with
  | nil => simp [inspect_loop, commaSep, String.append_empty]
  | cons v rest =>
    simp only [inspect_loop, if_neg (lt_irrefl 0), Nat.zero_add]
    rw [inspect_loop_pos render rest 1 _ Nat.one_pos, commaSep_map_cons render rest v]
    simp [String.append_assoc]

/-! ### `linked_list_mark` -/

/-- `linked_list_mark`: walks the chain from the head; for each node it calls
`rb_gc_mark(node->value)` exactly when `if(node->value)` holds, i.e. when
the value word is nonzero.  The result is the sequence of words passed to
`rb_gc_mark`, in call order. -/
def linked_list_mark : List Nat → List Nat
  | [] => []
  | v :: rest => if v ≠ 0 then v :: linked_list_mark rest else linked_list_mark rest

/-- The marking behaviour claim C3 describes, in its own words: the set of
reachable values (first occurrences, head-to-tail), each reported exactly
once, with nodes holding the `Qnil` "none" sentinel skipped. -/
def mark_claimed (chain : List Nat) : List Nat :=
  (chain.filter (fun v => v ≠ qnil)).eraseDups

/-- C3 counterexample: on a single-node chain holding the `Qnil` sentinel the
mark hook reports `Qnil` to `rb_gc_mark` (the C guard `if(node->value)` tests
for the zero word, i.e. `Qfalse`, and `Qnil` is nonzero), while the claim
says a none-valued node is skipped. -/
theorem C3_counterexample :
    linked_list_mark [qnil] = [qnil] ∧ mark_claimed [qnil] = [] ∧
    linked_list_mark [qnil] ≠ mark_claimed [qnil] := by
  refine ⟨rfl, rfl, ?_⟩
  decide

/-- C3 (amended): the mark hook visits each node exactly once, head-to-tail,
and reports each node's value exactly when that value is not the zero word
(`Qfalse`); equivalently the reported sequence is the chain filtered to its
nonzero values.  In particular `Qnil`-valued nodes are reported and
`Qfalse`-valued nodes are skipped, and a value stored in several nodes is
reported once per node. -/
theorem C3_mark_reports_nonzero_values (chain : List Nat) :
    linked_list_mark chain = chain.filter (fun v => v ≠ qfalse) := by
  induction chain with
  | nil => rfl
  | cons v rest ih =>
    by_cases hv : v = 0 <;> simp [linked_list_mark, qfalse, hv, ih]

/-! ### `linked_list_memsize` -/

/-- `sizeof(linkedListType)`: the list struct holds a single node pointer
(8 bytes on the LP64 hosts Ruby extensions target). -/
def sizeof_linkedListType : Nat := 8

/-- `linked_list_memsize`: returns `sizeof(linkedListType)` whatever the
current chain is. -/
def linked_list_memsize (_st : List Nat) : Nat := sizeof_linkedListType

/-- C10: the size callback reports the same constant — the size of the bare
list struct — for every list state; node memory is never counted. -/
theorem C10_memsize_constant (st st' : List Nat) :
    linked_list_memsize st = sizeof_linkedListType ∧
    linked_list_memsize st = linked_list_memsize st' := ⟨rfl, rfl⟩

/-! ### Heap model

The node store made explicit.  A `Heap` maps addresses to allocated nodes
and records the next never-used address; `malloc` hands out that address
(every `malloc` in the source returns a fresh block, so distinct live nodes
never alias), `free` deletes the binding.  The C `while` loops become
fuel-bounded walks; `h.fresh` always bounds the number of allocated nodes,
so it is a sufficient fuel for any terminating walk, and fuel exhaustion
(result `none`) models a walk the C code would not complete. -/

/-- A `linkedListNodeType` cell: `{ next : linkedListNodePtr, value : VALUE }`,
with `next = none` for `NULL`. -/
structure CNode where
  next : Option Nat
  value : Nat
deriving DecidableEq

/-- The node store: `mem a` is the node allocated at address `a`, if any;
`fresh` is the least never-allocated address. -/
structure Heap where
  mem : Nat → Option CNode
  fresh : Nat

/-- Overwrite the node at an allocated address (a field assignment through a
node pointer). -/
def Heap.write (h : Heap) (a : Nat) (nd : CNode) : Heap :=
  ⟨fun b => if b = a then some nd else h.mem b, h.fresh⟩

/-- `malloc` of a node: returns the updated heap and the new address. -/
def Heap.alloc (h : Heap) (nd : CNode) : Heap × Nat :=
  (⟨fun b => if b = h.fresh then some nd else h.mem b, h.fresh + 1⟩, h.fresh)

/-- `free` of a node. -/
def Heap.free (h : Heap) (a : Nat) : Heap :=
  ⟨fun b => if b = a then none else h.mem b, h.fresh⟩

/-- A `linkedListType` handle together with its node store: `head` is the
`head` pointer (`none` for `NULL`). -/
structure LState where
  heap : Heap
  head : Option Nat

/-- `rb_linked_list_allocate` in the heap model: empty store, `head = NULL`. -/
def allocateC : LState := ⟨⟨fun _ => none, 0⟩, none⟩

/-- The tail scan `while(node->next != NULL) { node = node->next; }` of
`rb_linked_list_append`, with fuel: returns the address of the node whose
`next` is `NULL`, or `none` if the fuel runs out or a dangling pointer is
followed. -/
def findTail (h : Heap) : Nat → Nat → Option Nat
  | 0, _ => none
  | fuel + 1, a =>
    match h.mem a with
    | none => none
    | some nd =>
      match nd.next with
      | none => some a
      | some b => findTail h fuel b

/-- `rb_linked_list_append` in the heap model: empty list gets a fresh head
node; otherwise the tail is found by scanning and the fresh node is linked
after it.  `none` models a scan the C code would not complete. -/
def appendC (s : LState) (v : Nat) : Option LState :=
  match s.head with
  | none =>
    let r := s.heap.alloc ⟨none, v⟩
    some ⟨r.1, some r.2⟩
  | some a0 =>
    match findTail s.heap s.heap.fresh a0 with
    | none => none
    | some t =>
      match s.heap.mem t with
      | none => none
      | some nd =>
        let r := s.heap.alloc ⟨none, v⟩
        some ⟨r.1.write t ⟨some r.2, nd.value⟩, s.head⟩

/-- `rb_linked_list_prepend` in the heap model: the fresh node takes the old
head as successor and becomes the head. -/
def prependC (s : LState) (v : Nat) : LState :=
  let r := s.heap.alloc ⟨s.head, v⟩
  ⟨r.1, some r.2⟩

/-- `rb_linked_list_shift` in the heap model: `Qnil` on `head = NULL`;
otherwise the head node is read, freed, and the head advanced.  `none`
models a read through a dangling head pointer. -/
def shiftC (s : LState) : Option (Nat × LState) :=
  match s.head with
  | none => some (qnil, s)
  | some a =>
    match s.heap.mem a with
    | none => none
    | some nd => some (nd.value, ⟨s.heap.free a, nd.next⟩)

/-- `linked_list_free` in the heap model: `free(ptr)` releases the list
struct only — the node store is untouched. -/
def linked_list_free (s : LState) : Heap := s.heap

/-- A user-visible mutating operation of the extension. -/
inductive Op
  | append : Nat → Op
  | prepend : Nat → Op
  | shift : Op
deriving DecidableEq

/-- Run one operation on the heap-model state. -/
def runOp (s : LState) : Op → Option LState
  | Op.append v => appendC s v
  | Op.prepend v => some (prependC s v)
  | Op.shift => (shiftC s).map (fun r => r.2)

/-- Run a sequence of operations on the heap-model state. -/
def runOps : LState → List Op → Option LState
  | s, [] => some s
  | s, op :: ops =>
    match runOp s op with
    | none => none
    | some s2 => runOps s2 ops

/-- The same operation on the abstract value-sequence model. -/
def absOp (l : List Nat) : Op → List Nat
  | Op.append v => append_chain l v
  | Op.prepend v => prepend_chain l v
  | Op.shift => (rb_linked_list_shift l).2

/-- A sequence of operations on the abstract value-sequence model. -/
def absRun (l : List Nat) (ops : List Op) : List Nat := ops.foldl absOp l

/-- `chain h hd ps`: starting from pointer `hd`, the heap `h` spells out
exactly the (address, node) pairs `ps` and reaches `NULL`.  In particular
the walk terminates. -/
inductive chain (h : Heap) : Option Nat → List (Nat × CNode) → Prop
  | nil : chain h none []
  | cons {a : Nat} {nd : CNode} {ps : List (Nat × CNode)} :
      h.mem a = some nd → chain h nd.next ps → chain h (some a) ((a, nd) :: ps)

/-- The executable reachability walk from a pointer, with fuel: the list of
addresses visited before reaching `NULL`, or `none` on fuel exhaustion or a
dangling pointer. -/
def traverseFrom (h : Heap) : Nat → Option Nat → Option (List Nat)
  | _, none => some []
  | 0, some _ => none
  | fuel + 1, some a =>
    match h.mem a with
    | none => none
    | some nd => (traverseFrom h fuel nd.next).map (fun l => a :: l)

/-- The coupling invariant between the heap model and the abstract model:
the chain from `head` is well formed, visits pairwise distinct addresses,
stays below `fresh`, and carries exactly the abstract value sequence. -/
def Inv (s : LState) (l : List Nat) : Prop :=
  ∃ ps : List (Nat × CNode),
    chain s.heap s.head ps ∧
    (ps.map Prod.fst).Nodup ∧
    (∀ p ∈ ps, p.1 < s.heap.fresh) ∧
    ps.map (fun p => p.2.value) = l

theorem chain_none {h : Heap} {ps : List (Nat × CNode)} (hc : chain h none ps) :
    ps = [] := by
  cases hc; rfl

theorem chain_some {h : Heap} {a : Nat} {ps : List (Nat × CNode)}
    (hc : chain h (some a) ps) :
    ∃ nd ps', ps = (a, nd) :: ps' ∧ h.mem a = some nd ∧ chain h nd.next ps' := by
  cases hc with
  | cons hm hrest => exact ⟨_, _, rfl, hm, hrest⟩

theorem chain_ne_nil_head {h : Heap} {x : Option Nat} {ps : List (Nat × CNode)}
    (hc : chain h x ps) (hne : ps ≠ []) :
    ∃ p ps', ps = p :: ps' ∧ x = some p.1 := by
  cases hc with
  | nil => exact absurd rfl hne
  | cons hm hrest => exact ⟨_, _, rfl, rfl⟩

/-- Heap framing: a chain is unaffected by heap changes outside its own
addresses. -/
theorem chain_frame {h h2 : Heap} {x : Option Nat} {ps : List (Nat × CNode)}
    (hc : chain h x ps) (hagree : ∀ p ∈ ps, h2.mem p.1 = h.mem p.1) :
    chain h2 x ps := by
  induction hc with
  | nil => exact chain.nil
  | cons hm hrest ih =>
    exact chain.cons
      (by rw [hagree _ (List.mem_cons_self _ _)]; exact hm)
      (ih fun p hp => hagree p (List.mem_cons_of_mem _ hp))

/-- The tail scan of `append` succeeds on a well-formed chain given enough
fuel, and returns the last address of the chain, whose node has no
successor. -/
theorem findTail_of_chain {h : Heap} (ps : List (Nat × CNode)) :
    ∀ (a0 fuel : Nat), chain h (some a0) ps → ps.length ≤ fuel →
    ∃ t ndt qs, findTail h fuel a0 = some t ∧ h.mem t = some ndt ∧
      ndt.next = none ∧ ps = qs ++ [(t, ndt)] := by
  induction ps with
  | nil => intro a0 fuel hc _; cases hc
  | cons p ps' ih =>
    intro a0 fuel hc hfuel
    obtain ⟨nd, ps2, heq, hm, hrest⟩ := chain_some hc
    injection heq with h1 h2'
    subst h1; subst h2'
    cases fuel with
    | zero => simp at hfuel
    | succ f =>
      cases hn : nd.next with
      | none =>
        rw [hn] at hrest
        have : ps' = [] := chain_none hrest
        subst this
        exact ⟨a0, nd, [], by simp [findTail, hm, hn], hm, hn, rfl⟩
      | some b =>
        rw [hn] at hrest
        obtain ⟨t, ndt, qs, hft, hmt, hnn, hqs⟩ :=
          ih b f hrest (by simp at hfuel; omega)
        refine ⟨t, ndt, (a0, nd) :: qs, ?_, hmt, hnn, by rw [hqs]; rfl⟩
        simp [findTail, hm, hn, hft]

/-- The chain update performed by a non-empty `append`: the tail node's
`next` is redirected to the fresh node, everything else is untouched. -/
theorem chain_append_update {h h2 : Heap} {t na v : Nat} {ndt : CNode}
    (hmem_t : h2.mem t = some ⟨some na, ndt.value⟩)
    (hmem_na : h2.mem na = some ⟨none, v⟩)
    (hframe : ∀ b, b ≠ t → b ≠ na → h2.mem b = h.mem b)
    (qs : List (Nat × CNode)) :
    ∀ a0 : Nat,
      chain h (some a0) (qs ++ [(t, ndt)]) →
      ((qs ++ [(t, ndt)]).map Prod.fst).Nodup →
      (∀ p ∈ qs ++ [(t, ndt)], p.1 ≠ na) →
      chain h2 (some a0) (qs ++ [(t, ⟨some na, ndt.value⟩), (na, ⟨none, v⟩)]) := by
  induction qs with
  | nil =>
    intro a0 hc _ _
    obtain ⟨nd, ps2, heq, hm, hrest⟩ := chain_some hc
    simp only [List.nil_append] at heq
    injection heq with h1 h2'
    injection h1 with ht hnd
    subst ht
    exact chain.cons hmem_t (chain.cons hmem_na chain.nil)
  | cons q qs' ih =>
    intro a0 hc hnodup hna
    obtain ⟨nd, ps2, heq, hm, hrest⟩ := chain_some hc
    simp only [List.cons_append] at heq
    injection heq with h1 h2'
    subst h1; subst h2'
    have hne : qs' ++ [(t, ndt)] ≠ ([] : List (Nat × CNode)) := by simp
    obtain ⟨p, ps', hps, hnext⟩ := chain_ne_nil_head hrest hne
    have hA0t : a0 ≠ t := by
      simp only [List.cons_append, List.map_cons, List.nodup_cons] at hnodup
      intro hcontra
      exact hnodup.1 (by rw [hcontra]; simp)
    have hA0na : a0 ≠ na := hna (a0, nd) (by simp)
    have hrest2 : chain h (some p.1) (qs' ++ [(t, ndt)]) := by rw [← hnext]; exact hrest
    have hch2 := ih p.1 hrest2
      (by simp only [List.cons_append, List.map_cons, List.nodup_cons] at hnodup
          exact hnodup.2)
      (fun p2 hp2 => hna p2 (List.mem_cons_of_mem _ hp2))
    refine chain.cons ?_ ?_
    · rw [hframe a0 hA0t hA0na]; exact hm
    · rw [hnext]; exact hch2

/-- A list of pairwise distinct addresses all below `n` has at most `n`
elements. -/
theorem length_le_of_nodup_lt {ps : List (Nat × CNode)} {n : Nat}
    (hnd : (ps.map Prod.fst).Nodup) (hlt : ∀ p ∈ ps, p.1 < n) :
    ps.length ≤ n := by
  have hsub : (ps.map Prod.fst).toFinset ⊆ Finset.range n := by
    intro a ha
    simp only [List.mem_toFinset, List.mem_map] at ha
    obtain ⟨p, hp, rfl⟩ := ha
    exact Finset.mem_range.mpr (hlt p hp)
  have h1 : (ps.map Prod.fst).length ≤ n := by
    calc (ps.map Prod.fst).length = (ps.map Prod.fst).toFinset.card :=
          (List.toFinset_card_of_nodup hnd).symm
      _ ≤ (Finset.range n).card := Finset.card_le_card hsub
      _ = n := Finset.card_range n
  simpa using h1

/-- The executable reachability walk agrees with the chain relation given
enough fuel. -/
theorem traverseFrom_of_chain {h : Heap} {x : Option Nat}
    {ps : List (Nat × CNode)} (hc : chain h x ps) :
    ∀ fuel, ps.length ≤ fuel → traverseFrom h fuel x = some (ps.map Prod.fst) := by
  induction hc with
  | nil => intro fuel _; cases fuel <;> rfl
  | @cons a nd ps2 hm hrest ih =>
    intro fuel hfuel
    cases fuel with
    | zero => simp at hfuel
    | succ f =>
      have hf : ps2.length ≤ f := by simp at hfuel; omega
      simp [traverseFrom, hm, ih f hf]

theorem inv_allocateC : Inv allocateC [] :=
  ⟨[], chain.nil, List.nodup_nil, by simp, rfl⟩

theorem inv_prepend {s : LState} {l : List Nat} (v : Nat) (hInv : Inv s l) :
    Inv (prependC s v) (prepend_chain l v) := by
  obtain ⟨ps, hc, hnd, hlt, hv⟩ := hInv
  refine ⟨(s.heap.fresh, ⟨s.head, v⟩) :: ps, ?_, ?_, ?_, ?_⟩
  · refine chain.cons ?_ ?_
    · simp [prependC, Heap.alloc]
    · exact chain_frame hc fun p hp => by
        have hne : p.1 ≠ s.heap.fresh := Nat.ne_of_lt (hlt p hp)
        simp [prependC, Heap.alloc, hne]
  · simp only [List.map_cons, List.nodup_cons]
    refine ⟨?_, hnd⟩
    intro hmem
    obtain ⟨p, hp, hpe⟩ := List.mem_map.mp hmem
    exact absurd hpe (Nat.ne_of_lt (hlt p hp))
  · intro p hp
    rcases List.mem_cons.mp hp with h1 | h1
    · subst h1; simp [prependC, Heap.alloc]
    · have := hlt p h1
      simp only [prependC, Heap.alloc]
      omega
  · simp [prepend_chain, hv]

theorem inv_shift {s : LState} {l : List Nat} (hInv : Inv s l) :
    ∃ s2, runOp s Op.shift = some s2 ∧ Inv s2 (absOp l Op.shift) := by
  obtain ⟨ps, hc, hnd, hlt, hv⟩ := hInv
  cases hh : s.head with
  | none =>
    rw [hh] at hc
    have hps : ps = [] := chain_none hc
    subst hps
    have hl : l = [] := hv.symm
    refine ⟨s, by simp [runOp, shiftC, hh], ⟨[], ?_, List.nodup_nil, by simp, ?_⟩⟩
    · rw [hh]; exact chain.nil
    · simp [hl, absOp, rb_linked_list_shift]
  | some a =>
    rw [hh] at hc
    obtain ⟨nd, ps2, hpe, hm, hrest⟩ := chain_some hc
    subst hpe
    refine ⟨⟨s.heap.free a, nd.next⟩, by simp [runOp, shiftC, hh, hm], ?_⟩
    refine ⟨ps2, ?_, ?_, ?_, ?_⟩
    · exact chain_frame hrest fun p hp => by
        have hne : p.1 ≠ a := by
          simp only [List.map_cons, List.nodup_cons] at hnd
          intro hcontra
          exact hnd.1 (hcontra ▸ List.mem_map_of_mem _ hp)
        simp [Heap.free, hne]
    · simp only [List.map_cons, List.nodup_cons] at hnd
      exact hnd.2
    · intro p hp
      exact hlt p (List.mem_cons_of_mem _ hp)
    · rw [← hv]; simp [absOp, rb_linked_list_shift]

theorem inv_append {s : LState} {l : List Nat} (v : Nat) (hInv : Inv s l) :
    ∃ s2, appendC s v = some s2 ∧ Inv s2 (append_chain l v) := by
  obtain ⟨ps, hc, hnd, hlt, hv⟩ := hInv
  cases hh : s.head with
  | none =>
    rw [hh] at hc
    have hps : ps = [] := chain_none hc
    subst hps
    have hl : l = [] := hv.symm
    refine ⟨⟨(s.heap.alloc ⟨none, v⟩).1, some s.heap.fresh⟩, by simp [appendC, hh, Heap.alloc], ?_⟩
    refine ⟨[(s.heap.fresh, ⟨none, v⟩)], ?_, by simp, ?_, by simp [hl, append_chain]⟩
    · exact chain.cons (by simp [Heap.alloc]) chain.nil
    · intro p hp
      simp only [List.mem_singleton] at hp
      subst hp
      simp [Heap.alloc]
  | some a0 =>
    rw [hh] at hc
    have hlen : ps.length ≤ s.heap.fresh := length_le_of_nodup_lt hnd hlt
    obtain ⟨t, ndt, qs, hft, hmt, hnn, hqs⟩ := findTail_of_chain ps a0 s.heap.fresh hc hlen
    have ht_mem : (t, ndt) ∈ ps := by rw [hqs]; simp
    have ht_lt : t < s.heap.fresh := hlt (t, ndt) ht_mem
    have hmem_t :
        ((s.heap.alloc ⟨none, v⟩).1.write t ⟨some s.heap.fresh, ndt.value⟩).mem t =
          some ⟨some s.heap.fresh, ndt.value⟩ := by
      simp [Heap.write]
    have hmem_na :
        ((s.heap.alloc ⟨none, v⟩).1.write t ⟨some s.heap.fresh, ndt.value⟩).mem s.heap.fresh =
          some ⟨none, v⟩ := by
      have : s.heap.fresh ≠ t := Nat.ne_of_gt ht_lt
      simp [Heap.write, Heap.alloc, this]
    have hframe : ∀ b, b ≠ t → b ≠ s.heap.fresh →
        ((s.heap.alloc ⟨none, v⟩).1.write t ⟨some s.heap.fresh, ndt.value⟩).mem b =
          s.heap.mem b := by
      intro b hbt hbna
      simp [Heap.write, Heap.alloc, hbt, hbna]
    rw [hqs] at hc hnd
    have hna : ∀ p ∈ qs ++ [(t, ndt)], p.1 ≠ s.heap.fresh := fun p hp =>
      Nat.ne_of_lt (hlt p (by rw [hqs]; exact hp))
    have hch2 := chain_append_update hmem_t hmem_na hframe qs a0 hc hnd hna
    refine ⟨⟨(s.heap.alloc ⟨none, v⟩).1.write t ⟨some s.heap.fresh, ndt.value⟩, s.head⟩,
      by simp [appendC, hh, hft, hmt, Heap.alloc], ?_⟩
    refine ⟨qs ++ [(t, ⟨some s.heap.fresh, ndt.value⟩), (s.heap.fresh, ⟨none, v⟩)],
      by rw [hh]; exact hch2, ?_, ?_, ?_⟩
    · have hmap : (qs ++ [(t, (⟨some s.heap.fresh, ndt.value⟩ : CNode)),
          (s.heap.fresh, (⟨none, v⟩ : CNode))]).map Prod.fst =
          ((qs ++ [(t, ndt)]).map Prod.fst) ++ [s.heap.fresh] := by simp
      rw [hmap]
      refine List.Nodup.append hnd (List.nodup_singleton _) ?_
      intro b hb
      obtain ⟨p, hp, hpe⟩ := List.mem_map.mp hb
      have : b ≠ s.heap.fresh := hpe ▸ hna p hp
      simpa using this
    · intro p hp
      have hfr : ((s.heap.alloc ⟨none, v⟩).1.write t
          ⟨some s.heap.fresh, ndt.value⟩).fresh = s.heap.fresh + 1 := by
        simp [Heap.write, Heap.alloc]
      rw [hfr]
      simp only [List.mem_append, List.mem_cons, List.not_mem_nil, or_false] at hp
      rcases hp with h1 | h1 | h1
      · have := hlt p (by rw [hqs]; exact List.mem_append_left _ h1)
        omega
      · subst h1; omega
      · subst h1; omega
    · rw [hqs] at hv
      simp only [List.map_append, List.map_cons, List.map_nil] at hv ⊢
      rw [append_chain_eq, ← hv]
      simp

theorem runOp_inv (op : Op) {s : LState} {l : List Nat} (hInv : Inv s l) :
    ∃ s2, runOp s op = some s2 ∧ Inv s2 (absOp l op) := by
  cases op with
  | append v =>
    obtain ⟨s2, h1, h2⟩ := inv_append v hInv
    exact ⟨s2, by simpa [runOp] using h1, h2⟩
  | prepend v => exact ⟨prependC s v, rfl, inv_prepend v hInv⟩
  | shift => exact inv_shift hInv

theorem runOps_inv (ops : List Op) :
    ∀ (s : LState) (l : List Nat), Inv s l →
      ∃ s2, runOps s ops = some s2 ∧ Inv s2 (absRun l ops) := by
  induction ops with
  | nil => intro s l h; exact ⟨s, rfl, h⟩
  | cons op ops ih =>
    intro s l h
    obtain ⟨s2, h1, h2⟩ := runOp_inv op h
    obtain ⟨s3, h3, h4⟩ := ih s2 (absOp l op) h2
    refine ⟨s3, by simp [runOps, h1, h3], by simpa [absRun] using h4⟩

/-- C8: starting from a freshly allocated list, every finite sequence of
append/prepend/shift operations runs to completion; afterwards the chain
from `head` spells out a finite, duplicate-free list of node addresses (so
traversal terminates and the chain is acyclic), the bounded reachability
walk visits exactly those addresses, and the number of reachable nodes
equals the number of values currently logically stored (which the nodes
carry in order). -/
theorem C8_acyclic_reachable_count (ops : List Op) :
    ∃ (s2 : LState) (ps : List (Nat × CNode)),
      runOps allocateC ops = some s2 ∧
      chain s2.heap s2.head ps ∧
      (ps.map Prod.fst).Nodup ∧
      traverseFrom s2.heap s2.heap.fresh s2.head = some (ps.map Prod.fst) ∧
      ps.map (fun p => p.2.value) = absRun [] ops ∧
      ps.length = (absRun [] ops).length := by
  obtain ⟨s2, hrun, ps, hc, hnd, hlt, hv⟩ := runOps_inv ops allocateC [] inv_allocateC
  refine ⟨s2, ps, hrun, hc, hnd,
    traverseFrom_of_chain hc _ (length_le_of_nodup_lt hnd hlt), hv, ?_⟩
  rw [← hv]
  simp

/-- C4: the free hook does not cascade into the chain.  Destroying the list
built by a single `append(1)` runs `free(ptr)` on the list struct only: the
head node (address 0, value 1) is still allocated in the node store
afterwards, i.e. it leaks instead of being destroyed as the spec's
ownership model requires. -/
theorem C4_free_leaks_remaining_node :
    ∃ s : LState, runOps allocateC [Op.append 1] = some s ∧
      s.head = some 0 ∧
      (linked_list_free s).mem 0 = some ⟨none, 1⟩ ∧
      (linked_list_free s).mem 0 ≠ none :=
  ⟨_, rfl, rfl, rfl, by simp [linked_list_free, allocateC, runOps, runOp, appendC, Heap.alloc]⟩

end LinkedLists
